import Mathlib

/-!
# Shallow embedding of the CV/JD analysis tool's extraction and matching engine

This file embeds the skill-extraction and semantic-matching core of the
repository (`src/extractor.py`, `src/matcher.py`) into Lean and proves the
specified properties about it.

Modelling conventions:
* Python strings are Lean `String`s; `skill in text` (substring containment)
  is list-of-characters containment of `String.data`.
* The spaCy analysis backend is an explicit parameter: a function
  `String → Option Doc` producing, for a (lowercased) text, its noun chunks
  and sentences, with `none` standing for a raised exception; and, for the
  matcher, a similarity function `String → String → ℚ`.  `nlp.pipe` over a
  batch is the backend applied to each text in order, an exception anywhere
  aborting the whole batch (`pipeDocs`).
* Python floats are modelled as rationals `ℚ`.
* A Python `set()` accumulator is a `Finset String`.
* The mutable `self.config['matcher']` dictionary is a `MatcherConfig`
  value passed to each call — its value at call time.
-/

/-- A sentence as produced by the analysis backend: its surface text and its
tokens (`sent.text`, iteration over `sent`). -/
structure Sent where
  text : String
  tokens : List String
deriving DecidableEq

/-- A processed document as produced by the analysis backend:
`doc.noun_chunks` (each chunk's text) and `doc.sents`. -/
structure Doc where
  nounChunks : List String
  sents : List Sent
deriving DecidableEq

/-- One entry of the skill dictionary: a canonical skill name and its
synonyms (`data/skills.json`: category → canonical → synonyms). -/
structure SkillEntry where
  canonical : String
  synonyms : List String
deriving DecidableEq

/-- The skill dictionary: a list of categories, each a list of entries
(the Python dict-of-dicts, in iteration order). -/
abbrev SkillDict := List (List SkillEntry)

/-- Python's `str.lower()`: lowercase every character.  (Same function as
`String.toLower`, written over `String.data` so that it reduces.) -/
def strLower (s : String) : String := ⟨s.data.map Char.toLower⟩

/-- Python's `needle in hay` on strings: substring containment. -/
def substrOf (needle hay : String) : Bool :=
  decide (needle.data <:+: hay.data)

/-- The list `self.skill_patterns`: every canonical name followed by its synonyms,
flattened over all categories (extractor `__init__`, lines 37–41). -/
def skillPatternsOf (d : SkillDict) : List String :=
  (d.map (fun cat => (cat.map (fun e => e.canonical :: e.synonyms)).flatten)).flatten

/-- The canonical names the inner double loop adds for a matched token `p`:
every entry whose canonical equals `p` or whose synonyms contain `p`
(extractor lines 115–118 and the identical loops elsewhere). -/
def canonicalsFor (d : SkillDict) (p : String) : List String :=
  (d.map (fun cat =>
    (cat.filter (fun e => p == e.canonical || e.synonyms.contains p)).map
      (fun e => e.canonical))).flatten

/-- Add all canonicals for matched token `p` to the accumulated skill set. -/
def addCanonicals (d : SkillDict) (p : String) (s : Finset String) : Finset String :=
  (canonicalsFor d p).foldl (fun acc c => insert c acc) s

/-- Stage 1 (and the per-chunk body of stage 2): for every known skill token
contained in `hay`, add its canonicals (extractor lines 112–118). -/
def stageSubstring (d : SkillDict) (hay : String) (s : Finset String) : Finset String :=
  (skillPatternsOf d).foldl
    (fun acc p => if substrOf p hay then addCanonicals d p acc else acc) s

/-- Stage 2: scan each noun chunk's lowercased text for skill tokens
(extractor lines 121–127). -/
def stageChunks (d : SkillDict) (chunks : List String) (s : Finset String) : Finset String :=
  chunks.foldl (fun acc c => stageSubstring d (strLower c) acc) s

/-- The fixed JD indicator phrases (extractor line 131). -/
def jd_indicators : List String := ["required", "qualifications", "skills", "must have"]

/-- Stage 3 per-sentence body: every token equal (lowercased, exactly) to a
skill token contributes its canonicals (extractor lines 134–140). -/
def stageJdSent (d : SkillDict) (sent : Sent) (s : Finset String) : Finset String :=
  sent.tokens.foldl (fun acc tok =>
    (skillPatternsOf d).foldl
      (fun acc2 p => if strLower tok == p then addCanonicals d p acc2 else acc2) acc) s

/-- Stage 3: only sentences containing a JD indicator are scanned
(extractor lines 130–140). -/
def stageJd (d : SkillDict) (doc : Doc) (s : Finset String) : Finset String :=
  doc.sents.foldl (fun acc sent =>
    if jd_indicators.any (fun ind => substrOf ind (strLower sent.text))
    then stageJdSent d sent acc else acc) s

/-- Models `SkillExtractor.extract_skills(text, is_jd)` (extractor lines 101–149):
empty text returns `[]`; a backend failure is caught and returns `[]`;
otherwise the three extraction stages union into one deduplicated set. -/
def extract_skills (d : SkillDict) (nlp : String → Option Doc)
    (text : String) (is_jd : Bool) : Finset String :=
  if text = "" then ∅
  else
    match nlp (strLower text) with
    | none => ∅
    | some doc =>
      let s1 := stageSubstring d (strLower text) ∅
      let s2 := stageChunks d doc.nounChunks s1
      if is_jd then stageJd d doc s2 else s2

/-- Models `list(self.nlp.pipe([text.lower() for text in texts]))` (extractor line
175): process every text; an exception on any text aborts the whole batch. -/
def pipeDocs (nlp : String → Option Doc) : List String → Option (List Doc)
  | [] => some []
  | t :: ts =>
    match nlp (strLower t), pipeDocs nlp ts with
    | some doc, some docs => some (doc :: docs)
    | _, _ => none

/-- The loop body of `batch_extract_skills` for one `(doc, text, is_jd)`
triple (extractor lines 178–209): the same three stages as
`extract_skills`, with no empty-text short-circuit. -/
def batchItem (d : SkillDict) (doc : Doc) (text : String) (is_jd : Bool) : Finset String :=
  let s1 := stageSubstring d (strLower text) ∅
  let s2 := stageChunks d doc.nounChunks s1
  if is_jd then stageJd d doc s2 else s2

/-- Models `SkillExtractor.batch_extract_skills(texts, is_jd_list)` (extractor lines
169–214): empty input returns `[]`; any exception inside the `try` returns
`[[] for _ in texts]`; otherwise `zip(docs, texts, is_jd_list)` is processed
(truncating to the shortest of the three). -/
def batch_extract_skills (d : SkillDict) (nlp : String → Option Doc)
    (texts : List String) (is_jd_list : List Bool) : List (Finset String) :=
  if texts.isEmpty then []
  else
    match pipeDocs nlp texts with
    | none => texts.map (fun _ => ∅)
    | some docs =>
      (docs.zip (texts.zip is_jd_list)).map
        (fun x => batchItem d x.1 x.2.1 x.2.2)

/-! ## Matcher (`src/matcher.py`) -/

/-- The `matcher` section of `config.yaml`, as read from `self.config` at
call time. -/
structure MatcherConfig where
  similarity_threshold : ℚ
  top_n_matches : ℕ
deriving DecidableEq

/-- The `MatchResult` dataclass (matcher lines 8–15). -/
structure MatchResult where
  cv_id : String
  similarity_score : ℚ
  matched_skills : List String
  total_cv_skills : ℕ
  total_jd_skills : ℕ
deriving DecidableEq

/-- Python's `f"{v:.2f}"`: render a rational rounded to two decimals. -/
def fmtSim (v : ℚ) : String :=
  let n : ℤ := round (v * 100)
  let sign := if n < 0 then "-" else ""
  let m := n.natAbs
  sign ++ toString (m / 100) ++ "." ++ (if m % 100 < 10 then "0" else "") ++ toString (m % 100)

/-- The evidence string `f"{cv_skill} -> {best_match} (sim: {max_sim:.2f})"`
(matcher line 71); Python renders `None` as `"None"`. -/
def fmtEvidence (c : String) (b : Option String) (v : ℚ) : String :=
  c ++ " -> " ++ (match b with | some j => j | none => "None") ++ " (sim: " ++ fmtSim v ++ ")"

/-- One iteration of the inner loop of `compute_similarity` (matcher lines
63–68): update `(max_sim, best_match)` on strictly greater similarity. -/
def bmStep (sim : String → String → ℚ) (c : String) (acc : ℚ × Option String)
    (j : String) : ℚ × Option String :=
  let s := sim c j
  if acc.1 < s then (s, some j) else acc

/-- The inner loop of `compute_similarity` (matcher lines 61–68): fold over
the JD skills keeping `(max_sim, best_match)`, starting from `(0.0, None)`. -/
def bestMatch (sim : String → String → ℚ) (c : String) (jd : List String) :
    ℚ × Option String :=
  jd.foldl (bmStep sim c) (0, none)

/-- Models `" ".join(skills)` (matcher lines 52–53). -/
def joinSpace (l : List String) : String := String.intercalate " " l

/-- The per-candidate-skill body of the pairwise loop (matcher lines 59–71):
if the best match clears the threshold, append `max_sim` to `similarities`
and the evidence string to `matched_skills`. -/
def simStep (sim : String → String → ℚ) (cfg : MatcherConfig)
    (jd_skills : List String) (acc : List ℚ × List String) (c : String) :
    List ℚ × List String :=
  let mb := bestMatch sim c jd_skills
  if cfg.similarity_threshold ≤ mb.1 then
    (acc.1 ++ [mb.1], acc.2 ++ [fmtEvidence c mb.2 mb.1])
  else acc

/-- Models `SkillMatcher.compute_similarity(cv_skills, jd_skills)` (matcher lines
41–83): empty input short-circuits to `(0.0, [])`; otherwise the overall
document similarity is averaged with the mean of the per-candidate best
matches that clear the threshold. -/
def compute_similarity (sim : String → String → ℚ) (cfg : MatcherConfig)
    (cv_skills jd_skills : List String) : ℚ × List String :=
  if cv_skills = [] ∨ jd_skills = [] then (0, [])
  else
    let overall := sim (joinSpace cv_skills) (joinSpace jd_skills)
    let step := cv_skills.foldl (simStep sim cfg jd_skills)
      (([] : List ℚ), ([] : List String))
    let avg := if step.1 = [] then 0 else step.1.sum / step.1.length
    ((overall + avg) / 2, step.2)

/-- Models `SkillMatcher.match_cv_to_jd` (matcher lines 85–97). -/
def match_cv_to_jd (sim : String → String → ℚ) (cfg : MatcherConfig)
    (cv_skills jd_skills : List String) (cv_id : String) : Option MatchResult :=
  let r := compute_similarity sim cfg cv_skills jd_skills
  if cfg.similarity_threshold ≤ r.1 then
    some { cv_id := cv_id
           similarity_score := r.1
           matched_skills := r.2
           total_cv_skills := cv_skills.length
           total_jd_skills := jd_skills.length }
  else none

/-- The descending-by-score comparison used by
`results.sort(key=lambda x: x.similarity_score, reverse=True)`. -/
def scoreDesc (a b : MatchResult) : Bool :=
  decide (b.similarity_score ≤ a.similarity_score)

/-- Models `SkillMatcher.rank_cvs_against_jd` (matcher lines 99–113): match each
candidate, drop the misses, stable-sort by score descending, truncate to
`self.config['matcher']['top_n_matches']`. -/
def rank_cvs_against_jd (sim : String → String → ℚ) (cfg : MatcherConfig)
    (cv_skills_list : List (String × List String)) (jd_skills : List String) :
    List MatchResult :=
  let results := cv_skills_list.filterMap
    (fun p => match_cv_to_jd sim cfg p.2 jd_skills p.1)
  let sorted := results.mergeSort scoreDesc
  sorted.take cfg.top_n_matches

/-! ## Spec-side definitions (for refinement comparisons) -/

/-- Written from the spec's words (§4.3): the per-candidate "maximum
pairwise similarity" of a candidate skill against a nonempty target list. -/
def specMaxSim (sim : String → String → ℚ) (c : String) : List String → ℚ
  | [] => 0
  | [j] => sim c j
  | j :: j' :: js => max (sim c j) (specMaxSim sim c (j' :: js))

/-- Written from the spec's words (§4.3): the per-candidate maxima that are
kept, i.e. those `≥` the similarity threshold. -/
def specKeptMaxima (sim : String → String → ℚ) (thr : ℚ)
    (cv jd : List String) : List ℚ :=
  (cv.map (fun c => specMaxSim sim c jd)).filter (fun m => thr ≤ m)

/-- Average of a list of rationals, `0` when empty (spec §4.3: "if no
pairwise match cleared the threshold, the pairwise term is 0"). -/
def avgOf (l : List ℚ) : ℚ := if l = [] then 0 else l.sum / l.length

/-- Written from the spec's words (§4.3): aggregate score = (overall
similarity + average of kept pairwise maxima) / 2. -/
def specAggregateScore (sim : String → String → ℚ) (thr : ℚ)
    (cv jd : List String) : ℚ :=
  (sim (joinSpace cv) (joinSpace jd) + avgOf (specKeptMaxima sim thr cv jd)) / 2

/-- The form the spec prescribes for an evidence string of a
candidate/target pair of skill lists: `"<cv_skill> -> <jd_skill> (sim: v)"`
where the candidate skill is from the candidate list and the target skill is
an element of the target list achieving that candidate's maximum pairwise
similarity. -/
def evidenceWellFormed (sim : String → String → ℚ) (cv jd : List String)
    (e : String) : Prop :=
  ∃ c ∈ cv, ∃ j ∈ jd, e = fmtEvidence c (some j) (sim c j) ∧
    ∀ j' ∈ jd, sim c j' ≤ sim c j

/-- The concrete skill dictionary used in witnesses: one category, canonical
`"python"` with synonym `"py"`. -/
def dW : SkillDict := [[⟨"python", ["py"]⟩]]

/-- A backend that raises on the text `"bad"` and otherwise yields a document
with no noun chunks and no sentences. -/
def nlpFail : String → Option Doc :=
  fun t => if t = "bad" then none else some (Doc.mk [] [])

/-! ## Matcher lemmas -/

lemma match_cv_to_jd_some (sim : String → String → ℚ) (cfg : MatcherConfig)
    (cv jd : List String) (id : String) (r : MatchResult)
    (h : match_cv_to_jd sim cfg cv jd id = some r) :
    cfg.similarity_threshold ≤ r.similarity_score ∧
    r.similarity_score = (compute_similarity sim cfg cv jd).1 := by
  simp only [match_cv_to_jd] at h
  split at h
  · next hle =>
    injection h with h'
    subst h'
    exact ⟨hle, rfl⟩
  · exact absurd h (by simp)

lemma scoreDesc_trans : ∀ a b c : MatchResult,
    scoreDesc a b → scoreDesc b c → scoreDesc a c := by
  intro a b c hab hbc
  simp only [scoreDesc, decide_eq_true_eq] at *
  exact le_trans hbc hab

lemma scoreDesc_total : ∀ a b : MatchResult, scoreDesc a b || scoreDesc b a := by
  intro a b
  simp only [scoreDesc, Bool.or_eq_true, decide_eq_true_eq]
  exact le_total b.similarity_score a.similarity_score

/-- C6: `compute_similarity` with an empty candidate or target list returns
exactly `(0.0, [])`, for every analysis backend (hence without invoking it)
and every configuration, without an error. -/
theorem compute_similarity_empty_inputs (sim : String → String → ℚ)
    (cfg : MatcherConfig) (X : List String) :
    compute_similarity sim cfg [] X = (0, []) ∧
    compute_similarity sim cfg X [] = (0, []) := by
  constructor <;> simp [compute_similarity]

/-- C3: `match_cv_to_jd` returns `none` iff the aggregate score computed by
`compute_similarity` is strictly below the similarity threshold; otherwise it
returns a `MatchResult` whose `total_cv_skills` and `total_jd_skills` equal
the input list lengths. -/
theorem match_cv_to_jd_threshold_gating (sim : String → String → ℚ)
    (cfg : MatcherConfig) (cv_skills jd_skills : List String) (cv_id : String) :
    (match_cv_to_jd sim cfg cv_skills jd_skills cv_id = none ↔
      (compute_similarity sim cfg cv_skills jd_skills).1 < cfg.similarity_threshold) ∧
    ∀ r, match_cv_to_jd sim cfg cv_skills jd_skills cv_id = some r →
      r.total_cv_skills = cv_skills.length ∧
      r.total_jd_skills = jd_skills.length := by
  constructor
  · simp only [match_cv_to_jd]
    split
    · next hle => simp [not_lt.mpr hle]
    · next hlt => simp [lt_of_not_le hlt]
  · intro r hr
    simp only [match_cv_to_jd] at hr
    split at hr
    · injection hr with h'
      subst h'
      exact ⟨rfl, rfl⟩
    · exact absurd hr (by simp)

/-- Witness for C3 at a concrete input: a constant-similarity backend with
threshold 0 matches `["a"]` against `["b"]` and records the list lengths. -/
theorem match_cv_to_jd_threshold_gating_witness :
    (MatchResult.mk "CV_1" 1 [fmtEvidence "a" (some "b") 1] 1 1).total_cv_skills = 1 ∧
    (MatchResult.mk "CV_1" 1 [fmtEvidence "a" (some "b") 1] 1 1).total_jd_skills = 1 :=
  (match_cv_to_jd_threshold_gating (fun _ _ => 1) ⟨0, 5⟩ ["a"] ["b"] "CV_1").2
    (MatchResult.mk "CV_1" 1 [fmtEvidence "a" (some "b") 1] 1 1)
    (by norm_num [match_cv_to_jd, compute_similarity, simStep, bestMatch, bmStep])

/-- C2: the ranked list is no longer than `top_n_matches`, sorted by score
descending, stable on ties (for each score, the survivors appear as a prefix
of their original relative order), every entry's score clears the threshold,
and it is empty (not an error) when no candidate clears the threshold. -/
theorem rank_cvs_against_jd_bounds (sim : String → String → ℚ)
    (cfg : MatcherConfig) (cv_skills_list : List (String × List String))
    (jd_skills : List String) :
    (rank_cvs_against_jd sim cfg cv_skills_list jd_skills).length ≤ cfg.top_n_matches ∧
    (rank_cvs_against_jd sim cfg cv_skills_list jd_skills).Pairwise
      (fun a b => b.similarity_score ≤ a.similarity_score) ∧
    (∀ r ∈ rank_cvs_against_jd sim cfg cv_skills_list jd_skills,
      cfg.similarity_threshold ≤ r.similarity_score) ∧
    (∀ q : ℚ,
      (rank_cvs_against_jd sim cfg cv_skills_list jd_skills).filter
          (fun r => decide (r.similarity_score = q)) <+:
        (cv_skills_list.filterMap
            (fun p => match_cv_to_jd sim cfg p.2 jd_skills p.1)).filter
          (fun r => decide (r.similarity_score = q))) ∧
    ((∀ p ∈ cv_skills_list,
        (compute_similarity sim cfg p.2 jd_skills).1 < cfg.similarity_threshold) →
      rank_cvs_against_jd sim cfg cv_skills_list jd_skills = []) := by
  set results := cv_skills_list.filterMap
    (fun p => match_cv_to_jd sim cfg p.2 jd_skills p.1) with hres
  have hrank : rank_cvs_against_jd sim cfg cv_skills_list jd_skills =
      (results.mergeSort scoreDesc).take cfg.top_n_matches := rfl
  refine ⟨?_, ?_, ?_, ?_, ?_⟩
  · rw [hrank, List.length_take]
    exact min_le_left _ _
  · rw [hrank]
    have hs : (results.mergeSort scoreDesc).Pairwise (fun a b => scoreDesc a b) :=
      List.sorted_mergeSort scoreDesc_trans scoreDesc_total results
    have hp2 := List.Pairwise.sublist (List.take_sublist cfg.top_n_matches _) hs
    exact hp2.imp (fun h => by
      simpa [scoreDesc, decide_eq_true_eq] using h)
  · intro r hr
    rw [hrank] at hr
    have hr' : r ∈ results := by
      have := List.mem_of_mem_take hr
      rwa [List.mem_mergeSort] at this
    rw [hres, List.mem_filterMap] at hr'
    obtain ⟨p, _, hp⟩ := hr'
    exact (match_cv_to_jd_some sim cfg p.2 jd_skills p.1 r hp).1
  · intro q
    set pq : MatchResult → Bool := fun r => decide (r.similarity_score = q) with hpq
    set A := results.filter pq with hA
    have hA_mem : ∀ a ∈ A, pq a := fun a ha => (List.mem_filter.mp ha).2
    have hA_pair : A.Pairwise (fun a b => scoreDesc a b) := by
      apply List.pairwise_of_forall_mem_list
      intro a ha b hb
      have ha' := hA_mem a ha
      have hb' := hA_mem b hb
      simp only [hpq, decide_eq_true_eq] at ha' hb'
      simp [scoreDesc, ha', hb']
    have hstab : List.Sublist A (results.mergeSort scoreDesc) :=
      List.sublist_mergeSort scoreDesc_trans scoreDesc_total hA_pair
        (List.filter_sublist _)
    have hAfilter : A.filter pq = A :=
      List.filter_eq_self.mpr hA_mem
    have hsub : List.Sublist A ((results.mergeSort scoreDesc).filter pq) := by
      have := hstab.filter pq
      rwa [hAfilter] at this
    have hperm : List.Perm ((results.mergeSort scoreDesc).filter pq) A :=
      (List.mergeSort_perm results scoreDesc).filter pq
    have hAeq : (results.mergeSort scoreDesc).filter pq = A :=
      (hsub.eq_of_length hperm.length_eq.symm).symm
    have htake : (results.mergeSort scoreDesc).take cfg.top_n_matches <+:
        results.mergeSort scoreDesc :=
      ⟨(results.mergeSort scoreDesc).drop cfg.top_n_matches,
        List.take_append_drop _ _⟩
    have := htake.filter pq
    rw [hrank]
    rw [hAeq] at this
    exact this
  · intro hall
    have : results = [] := by
      rw [hres, List.filterMap_eq_nil_iff]
      intro p hp
      simp only [match_cv_to_jd]
      rw [if_neg (not_le.mpr (hall p hp))]
    rw [hrank, this]
    simp

/-- Witness for C2 at a concrete input: with a zero backend and threshold 1,
no candidate clears the threshold and the ranked list is empty. -/
theorem rank_cvs_against_jd_bounds_witness :
    rank_cvs_against_jd (fun _ _ => 0) ⟨1, 3⟩ [("A", ["x"])] ["y"] = [] :=
  (rank_cvs_against_jd_bounds (fun _ _ => 0) ⟨1, 3⟩ [("A", ["x"])] ["y"]).2.2.2.2
    (by
      intro p hp
      simp only [List.mem_singleton] at hp
      subst hp
      norm_num [compute_similarity, simStep, bestMatch, bmStep])

/-! ## Lemmas for the aggregate-score formula (C4) -/

lemma bestMatch_fst_eq_foldl_max (sim : String → String → ℚ) (c : String) :
    ∀ (jd : List String) (acc : ℚ × Option String),
      (jd.foldl (bmStep sim c) acc).1 =
        jd.foldl (fun m j => max m (sim c j)) acc.1 := by
  intro jd
  induction jd with
  | nil => intro acc; rfl
  | cons j js ih =>
    intro acc
    simp only [List.foldl_cons]
    rw [ih]
    congr 1
    by_cases h : acc.1 < sim c j
    · simp [bmStep, h, max_eq_right (le_of_lt h)]
    · simp [bmStep, h, max_eq_left (not_lt.mp h)]

lemma specMaxSim_cons (sim : String → String → ℚ) (c j : String)
    (js : List String) (h : js ≠ []) :
    specMaxSim sim c (j :: js) = max (sim c j) (specMaxSim sim c js) := by
  cases js with
  | nil => exact absurd rfl h
  | cons j' js' => rfl

lemma le_specMaxSim (sim : String → String → ℚ) (c : String) :
    ∀ (js : List String), ∀ j ∈ js, sim c j ≤ specMaxSim sim c js := by
  intro js
  induction js with
  | nil => intro j hj; exact absurd hj (by simp)
  | cons a as ih =>
    intro j hj
    cases as with
    | nil =>
      simp only [List.mem_singleton] at hj
      subst hj
      rfl
    | cons a' as' =>
      rw [specMaxSim_cons sim c a (a' :: as') (by simp)]
      rcases List.mem_cons.mp hj with h | h
      · subst h; exact le_max_left _ _
      · exact le_trans (ih j h) (le_max_right _ _)

lemma foldl_max_eq_specMaxSim (sim : String → String → ℚ) (c : String) :
    ∀ (js : List String), js ≠ [] → ∀ (a : ℚ),
      js.foldl (fun m j => max m (sim c j)) a = max a (specMaxSim sim c js) := by
  intro js
  induction js with
  | nil => intro h; exact absurd rfl h
  | cons j js ih =>
    intro _ a
    cases js with
    | nil => simp [specMaxSim]
    | cons j' js' =>
      rw [List.foldl_cons, ih (by simp) (max a (sim c j)),
        specMaxSim_cons sim c j (j' :: js') (by simp), max_assoc]

lemma bestMatch_fst (sim : String → String → ℚ) (c : String)
    (jd : List String) (hjd : jd ≠ []) (hnn : ∀ j ∈ jd, 0 ≤ sim c j) :
    (bestMatch sim c jd).1 = specMaxSim sim c jd := by
  unfold bestMatch
  rw [bestMatch_fst_eq_foldl_max, foldl_max_eq_specMaxSim sim c jd hjd]
  apply max_eq_right
  obtain ⟨j0, hj0⟩ := List.exists_mem_of_ne_nil jd hjd
  exact le_trans (hnn j0 hj0) (le_specMaxSim sim c jd j0 hj0)

lemma foldl_simStep_fst (sim : String → String → ℚ) (cfg : MatcherConfig)
    (jd : List String) :
    ∀ (cv : List String) (acc : List ℚ × List String),
      (cv.foldl (simStep sim cfg jd) acc).1 =
        acc.1 ++ (cv.map (fun c => (bestMatch sim c jd).1)).filter
          (fun m => decide (cfg.similarity_threshold ≤ m)) := by
  intro cv
  induction cv with
  | nil => intro acc; simp
  | cons c cv ih =>
    intro acc
    simp only [List.foldl_cons, List.map_cons, List.filter_cons]
    rw [ih]
    by_cases h : cfg.similarity_threshold ≤ (bestMatch sim c jd).1
    · simp [simStep, h, List.append_assoc]
    · simp [simStep, h]

lemma foldl_simStep_snd (sim : String → String → ℚ) (cfg : MatcherConfig)
    (jd : List String) :
    ∀ (cv : List String) (acc : List ℚ × List String),
      (cv.foldl (simStep sim cfg jd) acc).2 =
        acc.2 ++ (cv.filter
          (fun c => decide (cfg.similarity_threshold ≤ (bestMatch sim c jd).1))).map
          (fun c => fmtEvidence c (bestMatch sim c jd).2 (bestMatch sim c jd).1) := by
  intro cv
  induction cv with
  | nil => intro acc; simp
  | cons c cv ih =>
    intro acc
    simp only [List.foldl_cons, List.filter_cons]
    rw [ih]
    by_cases h : cfg.similarity_threshold ≤ (bestMatch sim c jd).1
    · simp [simStep, h, List.append_assoc]
    · simp [simStep, h]

/-- C4: for nonempty inputs and a backend with nonnegative similarities, the
score returned by `compute_similarity` equals the spec's formula: (overall
document similarity of the space-joined lists + average of the kept
per-candidate maximum pairwise similarities) / 2, a maximum being kept
exactly when it clears the threshold, and the pairwise term being 0 when
nothing cleared it. -/
theorem compute_similarity_aggregate_formula (sim : String → String → ℚ)
    (cfg : MatcherConfig) (cv_skills jd_skills : List String)
    (hcv : cv_skills ≠ []) (hjd : jd_skills ≠ [])
    (hnn : ∀ a b, 0 ≤ sim a b) :
    (compute_similarity sim cfg cv_skills jd_skills).1 =
      specAggregateScore sim cfg.similarity_threshold cv_skills jd_skills := by
  simp only [compute_similarity, if_neg (by simp [hcv, hjd] : ¬(cv_skills = [] ∨ jd_skills = []))]
  rw [foldl_simStep_fst]
  have hmap : cv_skills.map (fun c => (bestMatch sim c jd_skills).1) =
      cv_skills.map (fun c => specMaxSim sim c jd_skills) := by
    apply List.map_congr_left
    intro c _
    exact bestMatch_fst sim c jd_skills hjd (fun j _ => hnn c j)
  rw [hmap]
  simp only [specAggregateScore, specKeptMaxima, avgOf, List.nil_append]

/-- Witness for C4 at a concrete input. -/
theorem compute_similarity_aggregate_formula_witness :
    (compute_similarity (fun _ _ => 1) ⟨1/2, 5⟩ ["a"] ["b"]).1 =
      specAggregateScore (fun _ _ => 1) ((1:ℚ)/2) ["a"] ["b"] :=
  compute_similarity_aggregate_formula (fun _ _ => 1) ⟨1/2, 5⟩ ["a"] ["b"]
    (by simp) (by simp) (fun _ _ => by norm_num)

/-! ## Evidence-string structure (C9) -/

lemma bmStep_fst_le (sim : String → String → ℚ) (c : String)
    (acc : ℚ × Option String) (j : String) :
    acc.1 ≤ (bmStep sim c acc j).1 := by
  unfold bmStep
  by_cases h : acc.1 < sim c j
  · simp [h, le_of_lt h]
  · simp [h]

lemma bestMatch_fold_invariant (sim : String → String → ℚ) (c : String) :
    ∀ (jd : List String) (acc : ℚ × Option String),
      acc.1 ≤ (jd.foldl (bmStep sim c) acc).1 ∧
      ((jd.foldl (bmStep sim c) acc) = acc ∨
        ∃ j ∈ jd, (jd.foldl (bmStep sim c) acc).2 = some j ∧
          (jd.foldl (bmStep sim c) acc).1 = sim c j) ∧
      ∀ j ∈ jd, sim c j ≤ (jd.foldl (bmStep sim c) acc).1 := by
  intro jd
  induction jd with
  | nil =>
    intro acc
    exact ⟨le_refl _, Or.inl rfl, by simp⟩
  | cons j js ih =>
    intro acc
    obtain ⟨ih1, ih2, ih3⟩ := ih (bmStep sim c acc j)
    rw [List.foldl_cons]
    refine ⟨le_trans (bmStep_fst_le sim c acc j) ih1, ?_, ?_⟩
    · rcases ih2 with h | ⟨j', hj', h2, h3⟩
      · rw [h]
        unfold bmStep
        by_cases hlt : acc.1 < sim c j
        · exact Or.inr ⟨j, by simp, by simp [hlt], by simp [hlt]⟩
        · simp [hlt]
      · exact Or.inr ⟨j', by simp [hj'], h2, h3⟩
    · intro j'' hj''
      rcases List.mem_cons.mp hj'' with h | h
      · subst h
        refine le_trans ?_ ih1
        unfold bmStep
        by_cases hlt : acc.1 < sim c j''
        · simp [hlt]
        · simp [hlt, not_lt.mp hlt]
      · exact ih3 j'' h

lemma bestMatch_pos_spec (sim : String → String → ℚ) (c : String)
    (jd : List String) (hpos : 0 < (bestMatch sim c jd).1) :
    ∃ j ∈ jd, (bestMatch sim c jd).2 = some j ∧
      (bestMatch sim c jd).1 = sim c j ∧ ∀ j' ∈ jd, sim c j' ≤ sim c j := by
  obtain ⟨-, h2, h3⟩ := bestMatch_fold_invariant sim c jd (0, none)
  rcases h2 with h | ⟨j, hj, hsome, heq⟩
  · exfalso
    unfold bestMatch at hpos
    rw [h] at hpos
    exact lt_irrefl 0 hpos
  · exact ⟨j, hj, hsome, heq, fun j' hj' => heq ▸ h3 j' hj'⟩

/-- C9 counterexample: at threshold 0 (inside the claim's range [0,1]) with
a backend whose similarities are all 0, `compute_similarity` on `["a"]` vs
`["b"]` emits the evidence string `"a -> None (sim: 0.00)"`, whose target
part is not an element of the target list, refuting the claimed form. -/
theorem compute_similarity_evidence_form_counterexample :
    ¬ ∀ e ∈ (compute_similarity (fun _ _ => 0) ⟨0, 5⟩ ["a"] ["b"]).2,
        evidenceWellFormed (fun _ _ => 0) ["a"] ["b"] e := by
  intro h
  have hev : (compute_similarity (fun _ _ => 0) ⟨0, 5⟩ ["a"] ["b"]).2 =
      [fmtEvidence "a" none 0] := by
    norm_num [compute_similarity, simStep, bestMatch, bmStep]
  have h2 := h (fmtEvidence "a" none 0) (by rw [hev]; simp)
  obtain ⟨c, hc, j, hj, heq, -⟩ := h2
  simp only [List.mem_singleton] at hc hj
  subst hc
  subst hj
  have h3 := congrArg String.data heq
  simp [fmtEvidence, String.data_append] at h3

/-- C9 (amended: threshold range tightened from [0,1] to (0,1]): for every
strictly positive threshold, every evidence string returned by
`compute_similarity` has the form `"<cv_skill> -> <jd_skill> (sim: v)"` with
the candidate skill from the candidate list and the target skill an element
of the target list achieving that candidate's maximum pairwise similarity. -/
theorem compute_similarity_evidence_form (sim : String → String → ℚ)
    (cfg : MatcherConfig) (cv jd : List String)
    (hthr : 0 < cfg.similarity_threshold)
    (hthr1 : cfg.similarity_threshold ≤ 1) :
    ∀ e ∈ (compute_similarity sim cfg cv jd).2,
      evidenceWellFormed sim cv jd e := by
  intro e he
  by_cases hempty : cv = [] ∨ jd = []
  · rw [compute_similarity, if_pos hempty] at he
    exact absurd he (by simp)
  · rw [compute_similarity, if_neg hempty] at he
    simp only at he
    rw [foldl_simStep_snd, List.nil_append, List.mem_map] at he
    obtain ⟨c, hcmem, hceq⟩ := he
    rw [List.mem_filter] at hcmem
    obtain ⟨hcv, hcthr⟩ := hcmem
    rw [decide_eq_true_eq] at hcthr
    have hpos : 0 < (bestMatch sim c jd).1 := lt_of_lt_of_le hthr hcthr
    obtain ⟨j, hj, hsome, heq, hmax⟩ := bestMatch_pos_spec sim c jd hpos
    exact ⟨c, hcv, j, hj, by rw [← hceq, hsome, heq], heq ▸ hmax⟩

/-- Witness for the amended C9 at a concrete input: with threshold 1/2 and a
constant-1 backend, the emitted evidence string is well-formed. -/
theorem compute_similarity_evidence_form_witness :
    evidenceWellFormed (fun _ _ => 1) ["a"] ["b"] (fmtEvidence "a" (some "b") 1) :=
  compute_similarity_evidence_form (fun _ _ => 1) ⟨1/2, 5⟩ ["a"] ["b"]
    (by norm_num) (by norm_num) (fmtEvidence "a" (some "b") 1)
    (by norm_num [compute_similarity, simStep, bestMatch, bmStep])

/-! ## Configuration dependence of ranking (C8) -/

/-- C8 counterexample: `rank_cvs_against_jd` takes only the candidate list
and the target list as call arguments and reads the similarity threshold and
`top_n_matches` from the shared matcher configuration (`self.config`, which
`app.py` line 85 mutates in place); two invocations with identical explicit
arguments differ when the shared configuration changed in between. -/
theorem rank_config_mutation_counterexample :
    rank_cvs_against_jd (fun _ _ => 1) ⟨0, 5⟩ [("A", ["x"])] ["y"] ≠
      rank_cvs_against_jd (fun _ _ => 1) ⟨2, 5⟩ [("A", ["x"])] ["y"] := by
  have h1 : rank_cvs_against_jd (fun _ _ => 1) ⟨0, 5⟩ [("A", ["x"])] ["y"] =
      [MatchResult.mk "A" 1 [fmtEvidence "x" (some "y") 1] 1 1] := by
    norm_num [rank_cvs_against_jd, match_cv_to_jd, compute_similarity,
      simStep, bestMatch, bmStep, List.filterMap_cons]
  have h2 : rank_cvs_against_jd (fun _ _ => 1) ⟨2, 5⟩ [("A", ["x"])] ["y"] = [] := by
    norm_num [rank_cvs_against_jd, match_cv_to_jd, compute_similarity,
      simStep, bestMatch, bmStep, List.filterMap_cons]
  rw [h1, h2]
  simp

/-- C8 (amended): `rank_cvs_against_jd` reads the similarity threshold and
`top_n_matches` from the shared matcher configuration at call time, not from
explicit per-call parameters; consequently a configuration mutation between
two calls with identical explicit arguments changes the result — here
raising the threshold from 0 to 2 turns a one-entry ranking into an empty
one. -/
theorem rank_reads_shared_config :
    rank_cvs_against_jd (fun _ _ => 1) ⟨0, 5⟩ [("A", ["x"])] ["y"] =
      [MatchResult.mk "A" 1 [fmtEvidence "x" (some "y") 1] 1 1] ∧
    rank_cvs_against_jd (fun _ _ => 1) ⟨2, 5⟩ [("A", ["x"])] ["y"] = [] := by
  constructor
  · norm_num [rank_cvs_against_jd, match_cv_to_jd, compute_similarity,
      simStep, bestMatch, bmStep, List.filterMap_cons]
  · norm_num [rank_cvs_against_jd, match_cv_to_jd, compute_similarity,
      simStep, bestMatch, bmStep, List.filterMap_cons]

/-! ## Extractor lemmas -/

lemma pipeDocs_eq_none_iff (nlp : String → Option Doc) :
    ∀ ts : List String, pipeDocs nlp ts = none ↔ ∃ t ∈ ts, nlp (strLower t) = none := by
  intro ts
  induction ts with
  | nil => simp [pipeDocs]
  | cons t ts ih =>
    unfold pipeDocs
    cases h : nlp (strLower t) with
    | none => simp [h]
    | some doc =>
      cases h2 : pipeDocs nlp ts with
      | none =>
        obtain ⟨t', ht', hn⟩ := ih.mp h2
        constructor
        · intro _
          exact ⟨t', List.mem_cons_of_mem t ht', hn⟩
        · intro _
          rfl
      | some docs =>
        constructor
        · intro hcontra
          exact Option.noConfusion hcontra
        · rintro ⟨t', ht', hn⟩
          rcases List.mem_cons.mp ht' with rfl | ht''
          · rw [hn] at h
            exact Option.noConfusion h
          · rw [ih.mpr ⟨t', ht'', hn⟩] at h2
            exact Option.noConfusion h2

lemma pipeDocs_total (nlpT : String → Doc) :
    ∀ ts : List String,
      pipeDocs (fun s => some (nlpT s)) ts = some (ts.map (fun t => nlpT (strLower t))) := by
  intro ts
  induction ts with
  | nil => rfl
  | cons t ts ih => simp [pipeDocs, ih]

lemma pipeDocs_some_length (nlp : String → Option Doc) :
    ∀ (ts : List String) (docs : List Doc),
      pipeDocs nlp ts = some docs → docs.length = ts.length := by
  intro ts
  induction ts with
  | nil => intro docs h; simp [pipeDocs] at h; simp [← h]
  | cons t ts ih =>
    intro docs h
    unfold pipeDocs at h
    cases h1 : nlp (strLower t) with
    | none => rw [h1] at h; exact absurd h (by simp)
    | some doc =>
      rw [h1] at h
      cases h2 : pipeDocs nlp ts with
      | none => rw [h2] at h; exact absurd h (by simp)
      | some docs' =>
        rw [h2] at h
        simp only [Option.some_inj] at h
        subst h
        simp [ih docs' h2]

lemma pipeDocs_isSome (nlp : String → Option Doc) (ts : List String)
    (h : ∀ t ∈ ts, (nlp (strLower t)).isSome) :
    ∃ docs, pipeDocs nlp ts = some docs ∧ docs.length = ts.length := by
  cases hp : pipeDocs nlp ts with
  | none =>
    obtain ⟨t, ht, hnone⟩ := (pipeDocs_eq_none_iff nlp ts).mp hp
    have := h t ht
    rw [hnone] at this
    exact absurd this (by simp)
  | some docs => exact ⟨docs, rfl, pipeDocs_some_length nlp ts docs hp⟩

lemma mem_foldl_insert :
    ∀ (l : List String) (s : Finset String) (x : String),
      x ∈ l.foldl (fun acc c => insert c acc) s ↔ x ∈ s ∨ x ∈ l := by
  intro l
  induction l with
  | nil => simp
  | cons c l ih =>
    intro s x
    rw [List.foldl_cons, ih]
    simp [Finset.mem_insert]
    tauto

lemma mem_addCanonicals (d : SkillDict) (p : String) (s : Finset String)
    (x : String) :
    x ∈ addCanonicals d p s ↔ x ∈ s ∨ x ∈ canonicalsFor d p :=
  mem_foldl_insert (canonicalsFor d p) s x

lemma mem_foldl_cond (d : SkillDict) (cond : String → Bool) :
    ∀ (ps : List String) (s : Finset String) (x : String),
      x ∈ ps.foldl (fun acc p => if cond p then addCanonicals d p acc else acc) s ↔
        x ∈ s ∨ ∃ p ∈ ps, cond p = true ∧ x ∈ canonicalsFor d p := by
  intro ps
  induction ps with
  | nil => simp
  | cons p ps ih =>
    intro s x
    rw [List.foldl_cons]
    by_cases h : cond p
    · rw [if_pos h, ih, mem_addCanonicals]
      constructor
      · rintro ((hs | hc) | ⟨p', hp', hcond, hx⟩)
        · exact Or.inl hs
        · exact Or.inr ⟨p, by simp, h, hc⟩
        · exact Or.inr ⟨p', by simp [hp'], hcond, hx⟩
      · rintro (hs | ⟨p', hp', hcond, hx⟩)
        · exact Or.inl (Or.inl hs)
        · rcases List.mem_cons.mp hp' with rfl | hp''
          · exact Or.inl (Or.inr hx)
          · exact Or.inr ⟨p', hp'', hcond, hx⟩
    · rw [if_neg h, ih]
      constructor
      · rintro (hs | ⟨p', hp', hcond, hx⟩)
        · exact Or.inl hs
        · exact Or.inr ⟨p', by simp [hp'], hcond, hx⟩
      · rintro (hs | ⟨p', hp', hcond, hx⟩)
        · exact Or.inl hs
        · rcases List.mem_cons.mp hp' with rfl | hp''
          · exact absurd hcond (by simp [h])
          · exact Or.inr ⟨p', hp'', hcond, hx⟩

lemma mem_stageSubstring (d : SkillDict) (hay : String) (s : Finset String)
    (x : String) :
    x ∈ stageSubstring d hay s ↔
      x ∈ s ∨ ∃ p ∈ skillPatternsOf d, substrOf p hay = true ∧
        x ∈ canonicalsFor d p :=
  mem_foldl_cond d (fun p => substrOf p hay) (skillPatternsOf d) s x

lemma mem_stageChunks (d : SkillDict) :
    ∀ (chunks : List String) (s : Finset String) (x : String),
      x ∈ stageChunks d chunks s ↔
        x ∈ s ∨ ∃ c ∈ chunks, ∃ p ∈ skillPatternsOf d,
          substrOf p (strLower c) = true ∧ x ∈ canonicalsFor d p := by
  intro chunks
  induction chunks with
  | nil => simp [stageChunks]
  | cons c chunks ih =>
    intro s x
    unfold stageChunks at *
    rw [List.foldl_cons, ih, mem_stageSubstring]
    constructor
    · rintro ((hs | ⟨p, hp, hsub, hx⟩) | ⟨c', hc', hrest⟩)
      · exact Or.inl hs
      · exact Or.inr ⟨c, by simp, p, hp, hsub, hx⟩
      · exact Or.inr ⟨c', by simp [hc'], hrest⟩
    · rintro (hs | ⟨c', hc', hrest⟩)
      · exact Or.inl (Or.inl hs)
      · rcases List.mem_cons.mp hc' with rfl | hc''
        · exact Or.inl (Or.inr hrest)
        · exact Or.inr ⟨c', hc'', hrest⟩

lemma mem_stageJdSent (d : SkillDict) (sent : Sent) :
    ∀ (toks : List String) (s : Finset String) (x : String),
      x ∈ toks.foldl (fun acc tok =>
          (skillPatternsOf d).foldl
            (fun acc2 p => if strLower tok == p then addCanonicals d p acc2 else acc2)
            acc) s ↔
        x ∈ s ∨ ∃ tok ∈ toks, ∃ p ∈ skillPatternsOf d,
          (strLower tok == p) = true ∧ x ∈ canonicalsFor d p := by
  intro toks
  induction toks with
  | nil => simp
  | cons tok toks ih =>
    intro s x
    rw [List.foldl_cons, ih,
      mem_foldl_cond d (fun p => strLower tok == p) (skillPatternsOf d) s x]
    constructor
    · rintro ((hs | ⟨p, hp, hbeq, hx⟩) | ⟨tok', htok', hrest⟩)
      · exact Or.inl hs
      · exact Or.inr ⟨tok, by simp, p, hp, hbeq, hx⟩
      · exact Or.inr ⟨tok', by simp [htok'], hrest⟩
    · rintro (hs | ⟨tok', htok', hrest⟩)
      · exact Or.inl (Or.inl hs)
      · rcases List.mem_cons.mp htok' with rfl | htok''
        · exact Or.inl (Or.inr hrest)
        · exact Or.inr ⟨tok', htok'', hrest⟩

lemma mem_stageJd (d : SkillDict) (doc : Doc) :
    ∀ (sents : List Sent) (s : Finset String) (x : String),
      x ∈ sents.foldl (fun acc sent =>
          if jd_indicators.any (fun ind => substrOf ind (strLower sent.text))
          then stageJdSent d sent acc else acc) s ↔
        x ∈ s ∨ ∃ sent ∈ sents,
          (jd_indicators.any (fun ind => substrOf ind (strLower sent.text))) = true ∧
          ∃ tok ∈ sent.tokens, ∃ p ∈ skillPatternsOf d,
            (strLower tok == p) = true ∧ x ∈ canonicalsFor d p := by
  intro sents
  induction sents with
  | nil => simp
  | cons sent sents ih =>
    intro s x
    rw [List.foldl_cons]
    by_cases h : jd_indicators.any (fun ind => substrOf ind (strLower sent.text))
    · rw [if_pos h, ih]
      unfold stageJdSent
      rw [mem_stageJdSent d sent sent.tokens s x]
      constructor
      · rintro ((hs | hrest) | ⟨sent', hsent', hrest⟩)
        · exact Or.inl hs
        · exact Or.inr ⟨sent, by simp, h, hrest⟩
        · exact Or.inr ⟨sent', by simp [hsent'], hrest⟩
      · rintro (hs | ⟨sent', hsent', hind, hrest⟩)
        · exact Or.inl (Or.inl hs)
        · rcases List.mem_cons.mp hsent' with rfl | hsent''
          · exact Or.inl (Or.inr hrest)
          · exact Or.inr ⟨sent', hsent'', hind, hrest⟩
    · rw [if_neg h, ih]
      constructor
      · rintro (hs | ⟨sent', hsent', hrest⟩)
        · exact Or.inl hs
        · exact Or.inr ⟨sent', by simp [hsent'], hrest⟩
      · rintro (hs | ⟨sent', hsent', hind, hrest⟩)
        · exact Or.inl hs
        · rcases List.mem_cons.mp hsent' with rfl | hsent''
          · exact absurd hind (by simp [h])
          · exact Or.inr ⟨sent', hsent'', hind, hrest⟩

/-! ## Batch length behaviour (C10) and batch failure behaviour (C5) -/

/-- C10: when the flags list is shorter than the texts list and the backend
succeeds on every text, `batch_extract_skills` returns one entry per flag
(silently dropping the trailing texts); on an internal failure, or when the
flags list is at least as long, it returns one entry per text. -/
theorem batch_extract_skills_length (d : SkillDict) (nlp : String → Option Doc)
    (texts : List String) (is_jd_list : List Bool) :
    (is_jd_list.length < texts.length →
      (∀ t ∈ texts, (nlp (strLower t)).isSome) →
      (batch_extract_skills d nlp texts is_jd_list).length = is_jd_list.length) ∧
    ((∃ t ∈ texts, nlp (strLower t) = none) →
      (batch_extract_skills d nlp texts is_jd_list).length = texts.length) ∧
    (texts.length ≤ is_jd_list.length →
      (∀ t ∈ texts, (nlp (strLower t)).isSome) →
      (batch_extract_skills d nlp texts is_jd_list).length = texts.length) := by
  refine ⟨?_, ?_, ?_⟩
  · intro hlt hsome
    cases texts with
    | nil => exact absurd hlt (by simp)
    | cons t ts =>
      obtain ⟨docs, hdocs, hlen⟩ := pipeDocs_isSome nlp (t :: ts) hsome
      unfold batch_extract_skills
      rw [if_neg (by simp), hdocs]
      simp only [List.length_map, List.length_zip, hlen]
      omega
  · intro hfail
    have hne : texts ≠ [] := by
      obtain ⟨t0, ht0, -⟩ := hfail
      exact List.ne_nil_of_mem ht0
    unfold batch_extract_skills
    rw [if_neg (by simp [hne]),
      (pipeDocs_eq_none_iff nlp texts).mpr hfail]
    simp
  · intro hle hsome
    cases texts with
    | nil => simp [batch_extract_skills]
    | cons t ts =>
      obtain ⟨docs, hdocs, hlen⟩ := pipeDocs_isSome nlp (t :: ts) hsome
      unfold batch_extract_skills
      rw [if_neg (by simp), hdocs]
      simp only [List.length_map, List.length_zip, hlen]
      omega

/-- Witness for C10: the three branches at concrete inputs — a short flags
list drops the extra text, a backend failure yields one (empty) entry per
text, and equal lengths yield one entry per text. -/
theorem batch_extract_skills_length_witness :
    (batch_extract_skills [] (fun _ => some (Doc.mk [] [])) ["aa", "bb"] [false]).length = 1 ∧
    (batch_extract_skills [] (fun _ => none) ["aa", "bb"] [false, true]).length = 2 ∧
    (batch_extract_skills [] (fun _ => some (Doc.mk [] [])) ["aa"] [false, true]).length = 1 :=
  ⟨(batch_extract_skills_length [] (fun _ => some (Doc.mk [] [])) ["aa", "bb"] [false]).1
      (by decide) (by intro t _; rfl),
   (batch_extract_skills_length [] (fun _ => none) ["aa", "bb"] [false, true]).2.1
      ⟨"aa", by decide, rfl⟩,
   (batch_extract_skills_length [] (fun _ => some (Doc.mk [] [])) ["aa"] [false, true]).2.2
      (by decide) (by intro t _; rfl)⟩

/-- C5 counterexample: the backend fails on the second text only, yet the
whole batch degrades — the first text's batch result is `∅` although
`extract_skills` on it alone yields `{"python"}`; the failure is not
confined to the failing text. -/
theorem batch_failure_not_isolated_counterexample :
    batch_extract_skills dW nlpFail ["i use py", "bad"] [false, false] = [∅, ∅] ∧
    extract_skills dW nlpFail "i use py" false = {"python"} ∧
    (batch_extract_skills dW nlpFail ["i use py", "bad"] [false, false]).getD 0 ∅ ≠
      extract_skills dW nlpFail "i use py" false := by
  refine ⟨by decide, by decide, by decide⟩

/-- C5 (amended): if extraction fails on any text in the batch, every text's
result (not just the failing one's) degrades to the empty set — the batch
returns `[[] for _ in texts]` — and no exception propagates to the caller. -/
theorem batch_failure_degrades_whole_batch (d : SkillDict)
    (nlp : String → Option Doc) (texts : List String) (is_jd_list : List Bool)
    (hfail : ∃ t ∈ texts, nlp (strLower t) = none) :
    batch_extract_skills d nlp texts is_jd_list = texts.map (fun _ => ∅) := by
  have hne : texts ≠ [] := by
    obtain ⟨t0, ht0, -⟩ := hfail
    exact List.ne_nil_of_mem ht0
  unfold batch_extract_skills
  rw [if_neg (by simp [hne]),
    (pipeDocs_eq_none_iff nlp texts).mpr hfail]

/-- Witness for the amended C5 at a concrete input. -/
theorem batch_failure_degrades_whole_batch_witness :
    batch_extract_skills dW nlpFail ["i use py", "bad"] [false, false] =
      (["i use py", "bad"]).map (fun _ => ∅) :=
  batch_failure_degrades_whole_batch dW nlpFail ["i use py", "bad"] [false, false]
    ⟨"bad", by decide, by decide⟩

/-! ## Batch/single parity (C1) -/

lemma substrOf_empty_hay {p : String} (hp : p ≠ "") : substrOf p "" = false := by
  unfold substrOf
  rw [decide_eq_false_iff_not]
  intro h
  have hdata : p.data = [] := List.sublist_nil.mp h.sublist
  exact hp (String.ext hdata)

lemma stageSubstring_empty_hay (d : SkillDict) (s : Finset String)
    (hpat : ∀ p ∈ skillPatternsOf d, p ≠ "") :
    stageSubstring d "" s = s := by
  apply Finset.ext
  intro x
  rw [mem_stageSubstring]
  constructor
  · rintro (hs | ⟨p, hp, hsub, -⟩)
    · exact hs
    · rw [substrOf_empty_hay (hpat p hp)] at hsub
      exact absurd hsub (by simp)
  · exact Or.inl

lemma extract_eq_batchItem (d : SkillDict) (nlpT : String → Doc)
    (text : String) (flag : Bool)
    (hpat : ∀ p ∈ skillPatternsOf d, p ≠ "")
    (hchunks : (nlpT "").nounChunks = [])
    (hsents : (nlpT "").sents = []) :
    batchItem d (nlpT (strLower text)) text flag =
      extract_skills d (fun s => some (nlpT s)) text flag := by
  by_cases htext : text = ""
  · subst htext
    rw [extract_skills, if_pos rfl]
    simp only [batchItem]
    rw [show strLower "" = "" from rfl, stageSubstring_empty_hay d ∅ hpat, hchunks]
    cases flag with
    | false => rfl
    | true =>
      show stageJd d (nlpT "") (stageChunks d [] ∅) = ∅
      unfold stageJd
      rw [hsents]
      rfl
  · rw [extract_skills, if_neg htext]
    rfl

lemma map_zip_map_docs (d : SkillDict) (g : String → Doc) :
    ∀ (ts : List String) (fs : List Bool),
      ((ts.map (fun t => g (strLower t))).zip (ts.zip fs)).map
          (fun x => batchItem d x.1 x.2.1 x.2.2) =
        (ts.zip fs).map (fun x => batchItem d (g (strLower x.1)) x.1 x.2) := by
  intro ts
  induction ts with
  | nil => intro fs; rfl
  | cons t ts ih =>
    intro fs
    cases fs with
    | nil => rfl
    | cons f fs =>
      simp only [List.map_cons, List.zip_cons_cons]
      rw [ih]

lemma batch_total_eq (d : SkillDict) (nlpT : String → Doc)
    (texts : List String) (flags : List Bool) :
    batch_extract_skills d (fun s => some (nlpT s)) texts flags =
      (texts.zip flags).map (fun x => batchItem d (nlpT (strLower x.1)) x.1 x.2) := by
  cases texts with
  | nil => rfl
  | cons t ts =>
    unfold batch_extract_skills
    rw [if_neg (by simp), pipeDocs_total nlpT (t :: ts)]
    exact map_zip_map_docs d nlpT (t :: ts) flags

/-- C1: for equally long text and flag lists (and a backend that, as spaCy
does, produces no chunks or sentences for the empty text, over a dictionary
with no empty token), every position of the batch result equals the
single-text extraction of the corresponding text and flag. -/
theorem batch_single_parity (d : SkillDict) (nlpT : String → Doc)
    (texts : List String) (is_jd_list : List Bool)
    (hlen : texts.length = is_jd_list.length)
    (hpat : ∀ p ∈ skillPatternsOf d, p ≠ "")
    (hchunks : (nlpT "").nounChunks = [])
    (hsents : (nlpT "").sents = []) :
    ∀ i : ℕ,
      (batch_extract_skills d (fun s => some (nlpT s)) texts is_jd_list).getD i ∅ =
        extract_skills d (fun s => some (nlpT s)) (texts.getD i "")
          (is_jd_list.getD i false) := by
  intro i
  rw [batch_total_eq]
  induction texts generalizing is_jd_list i with
  | nil =>
    simp [extract_skills]
  | cons t ts ih =>
    cases is_jd_list with
    | nil => exact absurd hlen (by simp)
    | cons f fs =>
      cases i with
      | zero =>
        simp only [List.zip_cons_cons, List.map_cons, List.getD_cons_zero]
        exact extract_eq_batchItem d nlpT t f hpat hchunks hsents
      | succ i =>
        simp only [List.zip_cons_cons, List.map_cons, List.getD_cons_succ]
        exact ih fs (by simpa using hlen) i

/-- Witness for C1 at a concrete input: one text containing the synonym
`"py"`, extracted identically by the batch and single paths. -/
theorem batch_single_parity_witness :
    (batch_extract_skills dW (fun s => some ((fun _ => Doc.mk [] []) s))
        ["i use py"] [false]).getD 0 ∅ =
      extract_skills dW (fun s => some ((fun _ => Doc.mk [] []) s))
        (["i use py"].getD 0 "") ([false].getD 0 false) :=
  batch_single_parity dW (fun _ => Doc.mk [] []) ["i use py"] [false] rfl
    (by decide) rfl rfl 0

/-! ## Canonicalization (C7) -/

lemma substrOf_eq_true_iff {p hay : String} :
    substrOf p hay = true ↔ p.data <:+: hay.data := by
  unfold substrOf
  exact decide_eq_true_iff

lemma mem_canonicalsFor (d : SkillDict) (p x : String) :
    x ∈ canonicalsFor d p ↔ ∃ cat ∈ d, ∃ e ∈ cat,
      (p = e.canonical ∨ p ∈ e.synonyms) ∧ x = e.canonical := by
  unfold canonicalsFor
  rw [List.mem_flatten]
  constructor
  · rintro ⟨l, hl, hx⟩
    rw [List.mem_map] at hl
    obtain ⟨cat, hcat, rfl⟩ := hl
    rw [List.mem_map] at hx
    obtain ⟨e, he, rfl⟩ := hx
    rw [List.mem_filter] at he
    obtain ⟨hecat, hcond⟩ := he
    refine ⟨cat, hcat, e, hecat, ?_, rfl⟩
    simpa using hcond
  · rintro ⟨cat, hcat, e, he, hcond, rfl⟩
    refine ⟨(cat.filter (fun e => p == e.canonical || e.synonyms.contains p)).map
      (fun e => e.canonical), List.mem_map_of_mem _ hcat, ?_⟩
    exact List.mem_map_of_mem _ (List.mem_filter.mpr ⟨he, by simpa using hcond⟩)

lemma mem_skillPatternsOf (d : SkillDict) (p : String) :
    p ∈ skillPatternsOf d ↔ ∃ cat ∈ d, ∃ e ∈ cat,
      p = e.canonical ∨ p ∈ e.synonyms := by
  unfold skillPatternsOf
  rw [List.mem_flatten]
  constructor
  · rintro ⟨l, hl, hp⟩
    rw [List.mem_map] at hl
    obtain ⟨cat, hcat, rfl⟩ := hl
    rw [List.mem_flatten] at hp
    obtain ⟨l2, hl2, hp2⟩ := hp
    rw [List.mem_map] at hl2
    obtain ⟨e, he, rfl⟩ := hl2
    rcases List.mem_cons.mp hp2 with rfl | hsyn
    · exact ⟨cat, hcat, e, he, Or.inl rfl⟩
    · exact ⟨cat, hcat, e, he, Or.inr hsyn⟩
  · rintro ⟨cat, hcat, e, he, hcase⟩
    refine ⟨(cat.map (fun e => e.canonical :: e.synonyms)).flatten,
      List.mem_map_of_mem _ hcat, ?_⟩
    rw [List.mem_flatten]
    refine ⟨e.canonical :: e.synonyms, List.mem_map_of_mem _ he, ?_⟩
    rcases hcase with rfl | h
    · exact List.mem_cons_self _ _
    · exact List.mem_cons_of_mem _ h

/-- C7: if `S` is a synonym of the entry with canonical name `C`, `S` maps
to exactly one canonical name globally, and the (lowercased) text contains
`S` and no other known skill token (nor any via the backend's chunks and
tokens, which are substrings of the text), then `extract_skills` returns a
set containing `C`, not containing `S`, with no duplicate canonical names. -/
theorem extract_skills_canonicalization (d : SkillDict) (nlpT : String → Doc)
    (text : String) (is_jd : Bool) (C S : String)
    (hSsyn : ∃ cat ∈ d, ∃ e ∈ cat, e.canonical = C ∧ S ∈ e.synonyms)
    (huniq : ∀ cat ∈ d, ∀ e ∈ cat, (S = e.canonical ∨ S ∈ e.synonyms) →
      e.canonical = C)
    (hSne : S ≠ "") (hSC : S ≠ C)
    (hcontains : substrOf S (strLower text) = true)
    (honly : ∀ p ∈ skillPatternsOf d, substrOf p (strLower text) = true → p = S)
    (hchunks : ∀ c ∈ (nlpT (strLower text)).nounChunks,
      (strLower c).data <:+: (strLower text).data)
    (htokens : ∀ sent ∈ (nlpT (strLower text)).sents, ∀ tok ∈ sent.tokens,
      (strLower tok).data <:+: (strLower text).data) :
    C ∈ extract_skills d (fun s => some (nlpT s)) text is_jd ∧
    S ∉ extract_skills d (fun s => some (nlpT s)) text is_jd ∧
    (extract_skills d (fun s => some (nlpT s)) text is_jd).toList.Nodup := by
  have htext : text ≠ "" := by
    intro h
    subst h
    rw [show strLower "" = "" from rfl, substrOf_empty_hay hSne] at hcontains
    exact absurd hcontains (by simp)
  have hE : extract_skills d (fun s => some (nlpT s)) text is_jd =
      (if is_jd then
        stageJd d (nlpT (strLower text))
          (stageChunks d (nlpT (strLower text)).nounChunks
            (stageSubstring d (strLower text) ∅))
      else
        stageChunks d (nlpT (strLower text)).nounChunks
          (stageSubstring d (strLower text) ∅)) := by
    rw [extract_skills, if_neg htext]
  obtain ⟨cat0, hcat0, e0, he0, heC, hesyn⟩ := hSsyn
  have hSpat : S ∈ skillPatternsOf d :=
    (mem_skillPatternsOf d S).mpr ⟨cat0, hcat0, e0, he0, Or.inr hesyn⟩
  have hCcan : C ∈ canonicalsFor d S :=
    (mem_canonicalsFor d S C).mpr ⟨cat0, hcat0, e0, he0, Or.inr hesyn, heC.symm⟩
  have honlyCan : ∀ x p, p ∈ skillPatternsOf d →
      substrOf p (strLower text) = true → x ∈ canonicalsFor d p → x = C := by
    intro x p hp hsub hx
    have hpS := honly p hp hsub
    subst hpS
    obtain ⟨cat, hcat, e, he, hcase, rfl⟩ := (mem_canonicalsFor d p x).mp hx
    exact huniq cat hcat e he hcase
  have hall : ∀ x, x ∈ extract_skills d (fun s => some (nlpT s)) text is_jd → x = C := by
    intro x hx
    rw [hE] at hx
    have hstep : x ∈ stageChunks d (nlpT (strLower text)).nounChunks
        (stageSubstring d (strLower text) ∅) → x = C := by
      intro hx2
      rcases (mem_stageChunks d _ _ x).mp hx2 with hx3 | ⟨c, hc, p, hp, hsub, hxc⟩
      · rcases (mem_stageSubstring d _ _ x).mp hx3 with hx4 | ⟨p, hp, hsub, hxc⟩
        · exact absurd hx4 (by simp)
        · exact honlyCan x p hp hsub hxc
      · have hsub' : substrOf p (strLower text) = true := by
          rw [substrOf_eq_true_iff]
          exact (substrOf_eq_true_iff.mp hsub).trans (hchunks c hc)
        exact honlyCan x p hp hsub' hxc
    cases is_jd with
    | false =>
      rw [if_neg (by simp)] at hx
      exact hstep hx
    | true =>
      rw [if_pos rfl] at hx
      unfold stageJd at hx
      rcases (mem_stageJd d (nlpT (strLower text)) _ _ x).mp hx with
        hx2 | ⟨sent, hsent, -, tok, htok, p, hp, hbeq, hxc⟩
      · exact hstep hx2
      · have htokeq : strLower tok = p := by
          have := eq_of_beq hbeq
          exact this
        have hsub' : substrOf p (strLower text) = true := by
          rw [substrOf_eq_true_iff, ← htokeq]
          exact htokens sent hsent tok htok
        exact honlyCan x p hp hsub' hxc
  have hCin : C ∈ extract_skills d (fun s => some (nlpT s)) text is_jd := by
    rw [hE]
    have hs1 : C ∈ stageSubstring d (strLower text) ∅ :=
      (mem_stageSubstring d _ _ C).mpr (Or.inr ⟨S, hSpat, hcontains, hCcan⟩)
    have hs2 : C ∈ stageChunks d (nlpT (strLower text)).nounChunks
        (stageSubstring d (strLower text) ∅) :=
      (mem_stageChunks d _ _ C).mpr (Or.inl hs1)
    cases is_jd with
    | false => rw [if_neg (by simp)]; exact hs2
    | true =>
      rw [if_pos rfl]
      unfold stageJd
      exact (mem_stageJd d (nlpT (strLower text)) _ _ C).mpr (Or.inl hs2)
  refine ⟨hCin, ?_, Finset.nodup_toList _⟩
  intro hSin
  exact hSC (hall S hSin)

/-- Witness for C7 at a concrete input: the text `"i use py daily"` contains
only the synonym `"py"`, and extraction returns the canonical `"python"`. -/
theorem extract_skills_canonicalization_witness :
    "python" ∈ extract_skills dW (fun s => some ((fun _ => Doc.mk [] []) s))
      "i use py daily" false ∧
    "py" ∉ extract_skills dW (fun s => some ((fun _ => Doc.mk [] []) s))
      "i use py daily" false ∧
    (extract_skills dW (fun s => some ((fun _ => Doc.mk [] []) s))
      "i use py daily" false).toList.Nodup :=
  extract_skills_canonicalization dW (fun _ => Doc.mk [] []) "i use py daily"
    false "python" "py"
    ⟨[⟨"python", ["py"]⟩], by decide, ⟨"python", ["py"]⟩, by decide, rfl, by decide⟩
    (by decide) (by decide) (by decide) (by decide) (by decide)
    (by decide) (by decide)
